import Mathlib

/-!
Shallow embedding of the testify test runner (crates testify_core and
testify_macros) and proofs about its organize / execute / run pipeline.

Sources embedded:
- testify_core/src/test.rs: TestStatus, Test, TestTermination.
- testify_core/src/runner.rs: TestifyConfig, TestGroup, TestPlan, organize, run.
- testify_macros/src/lib.rs: the status mapping generated by the test attribute.

Modelling conventions:
- A nullary Rust function value fn() -> TestStatus is embedded as its
  (deterministic) return value of type TestStatus; side effects are not
  modelled.
- The panic macro inside the bucketing loop of organize is modelled by the
  Option monad: none is the aborted (panicking) computation.
- A setup or cleanup hook fn() -> () is modelled by whether it is registered
  and whether it panics.
- Rust Vec sort_by (a stable comparison sort) is modelled by Mathlib's
  insertionSort, which is also a stable comparison sort.
-/

/-- TestStatus from testify_core/src/test.rs. -/
inductive TestStatus where
  | Passed
  | Panicked
  | NotPanicked
  | Failed
  | NotFailed
deriving DecidableEq, Repr

/-- Values of types implementing the TestTermination trait
(testify_core/src/test.rs): unit, Option and Result, closed under nesting. -/
inductive TermValue where
  | unitVal : TermValue
  | someVal : TermValue → TermValue
  | noneVal : TermValue
  | okVal : TermValue → TermValue
  | errVal : TermValue
deriving DecidableEq, Repr

/-- The success method of the TestTermination trait: unit is success, Option
succeeds iff present and the payload succeeds, Result succeeds iff Ok and the
payload succeeds (testify_core/src/test.rs lines 25-51). -/
def TermValue.success : TermValue → Bool
  | .unitVal => true
  | .someVal v => v.success
  | .noneVal => false
  | .okVal v => v.success
  | .errVal => false

/-- Result of catch_unwind around the user test body: Err (abnormal
termination) or Ok with the returned TestTermination value. -/
inductive RawOutcome where
  | panicked : RawOutcome
  | returned : TermValue → RawOutcome
deriving DecidableEq, Repr

/-- The wrapper generated by the test attribute macro
(testify_macros/src/lib.rs lines 148-182): maps the raw outcome and the
declared expectations to a TestStatus. -/
def testWrapper (should_panic should_fail : Bool) : RawOutcome → TestStatus
  | .panicked => if should_panic then .Passed else .Panicked
  | .returned r =>
    let success := r.success
    if should_panic then .NotPanicked
    else if should_fail then (if success then .NotFailed else .Passed)
    else (if success then .Passed else .Failed)

/-- Test from testify_core/src/test.rs. The source field case is renamed to
caseLabel (case is a Lean keyword); the function field fn() -> TestStatus is
embedded as its return value. -/
structure Test where
  name : String
  caseLabel : Option String
  tags : List String
  function : TestStatus
deriving DecidableEq, Repr

/-- TestifyConfig from testify_core/src/runner.rs lines 16-22. -/
structure TestifyConfig where
  name_filter : Option String
  tags : List String
  exclude_tags : List String
  fail_fast : Bool
deriving DecidableEq, Repr

/-- TestPlan from testify_core/src/runner.rs lines 55-58. -/
structure TestPlan where
  name : String
  cases : List Test
deriving DecidableEq, Repr

/-- TestGroup from testify_core/src/runner.rs lines 50-53. -/
structure TestGroup where
  tags : List String
  test_plans : List TestPlan
deriving DecidableEq, Repr

/-- The filter closure inside organize (runner.rs lines 62-81): keep a test iff
every required tag is contained in its tags, no excluded tag is contained in
its tags, and the glob pattern matches its name. The compiled glob pattern is
abstracted to its matches method, a String predicate, exactly as organize only
ever calls pattern.matches. -/
def keepTest (config : TestifyConfig) (pattern : String → Bool) (t : Test) : Bool :=
  config.tags.all (fun tag => t.tags.contains tag) &&
  config.exclude_tags.all (fun tag => !(t.tags.contains tag)) &&
  pattern t.name

/-- Rust char cmp: by Unicode scalar value. -/
def charCmp (a b : Char) : Ordering :=
  if a.toNat < b.toNat then .lt else if a.toNat = b.toNat then .eq else .gt

/-- Rust sequence cmp: lexicographic element by element, a strict prefix
ordered first. This is the Ord instance of both String (on its characters;
byte order and scalar value order agree on UTF-8) and Vec. -/
def listCmpWith (cmp : α → α → Ordering) : List α → List α → Ordering
  | [], [] => .eq
  | [], _ :: _ => .lt
  | _ :: _, [] => .gt
  | a :: xs, b :: ys =>
    match cmp a b with
    | .eq => listCmpWith cmp xs ys
    | c => c

/-- Rust String cmp. -/
def strCmp (a b : String) : Ordering := listCmpWith charCmp a.data b.data

/-- Rust Vec of String cmp. -/
def listStrCmp : List String → List String → Ordering := listCmpWith strCmp

/-- Rust Option of String cmp: None orders before Some. -/
def optStrCmp : Option String → Option String → Ordering
  | none, none => .eq
  | none, some _ => .lt
  | some _, none => .gt
  | some a, some b => strCmp a b

/-- The sort_by comparator in organize (runner.rs lines 85-99): tags, then
name, then case, each successive key only consulted on equality. -/
def testCmp (a b : Test) : Ordering :=
  match listStrCmp a.tags b.tags with
  | .eq =>
    match strCmp a.name b.name with
    | .eq => optStrCmp a.caseLabel b.caseLabel
    | c => c
  | c => c

/-- The non-strict order induced by the comparator, used by the stable sort. -/
def testLe (a b : Test) : Prop := testCmp a b ≠ .gt

instance : DecidableRel testLe :=
  fun a b => inferInstanceAs (Decidable (testCmp a b ≠ Ordering.gt))

/-- All suffixes of a character list, longest first, ending with the empty
suffix. -/
def suffixes : List Char → List (List Char)
  | [] => [[]]
  | c :: s => (c :: s) :: suffixes s

/-- Modelled from the spec: the external glob crate's Pattern::matches method
(not part of this repository), interpreted as a shell-style glob where a star
matches any run of characters and a question mark matches one character;
character classes are not used by any claim and are omitted. -/
def globMatchAux : List Char → List Char → Bool
  | [], s => s.isEmpty
  | '*' :: ps, s => (suffixes s).any fun s2 => globMatchAux ps s2
  | '?' :: ps, s =>
    match s with
    | [] => false
    | _ :: s2 => globMatchAux ps s2
  | p :: ps, s =>
    match s with
    | [] => false
    | c :: s2 => p == c && globMatchAux ps s2

/-- Modelled from the spec: glob pattern matching on strings. -/
def globMatch (p s : String) : Bool := globMatchAux p.data s.data

/-- The pattern compiled in run (runner.rs lines 175-185): the name_filter if
present, otherwise the match-everything pattern star. -/
def compiledPattern (config : TestifyConfig) : String → Bool :=
  fun s => globMatch (config.name_filter.getD "*") s

/-- A fresh plan holding a single test, as built inline in organize. -/
def newPlan (t : Test) : TestPlan := TestPlan.mk t.name [t]

/-- A fresh group holding a single plan, as built inline in organize. -/
def newGroup (t : Test) : TestGroup := TestGroup.mk t.tags [newPlan t]

/-- One iteration of the bucketing loop, restricted to the plans of the group
whose tags equal the tags of the incoming test (runner.rs lines 106-117):
append the test to the last plan when the name matches, otherwise push a new
plan; an empty plan list is the explicit panic branch (line 116), modelled as
none. The recursion walks to the last element of the list, mirroring
last_mut. -/
def pushPlan : List TestPlan → Test → Option (List TestPlan)
  | [], _ => none
  | [p], t =>
    if p.name = t.name then some [TestPlan.mk p.name (p.cases ++ [t])]
    else some [p, newPlan t]
  | p :: q :: ps, t => (pushPlan (q :: ps) t).map (fun r => p :: r)

/-- One iteration of the bucketing loop (runner.rs lines 103-136): if the last
group exists and its tags equal the tags of the incoming test, push into its
plans, else push a fresh group. The recursion walks to the last element of the
list, mirroring last_mut. -/
def pushGroup : List TestGroup → Test → Option (List TestGroup)
  | [], t => some [newGroup t]
  | [g], t =>
    if g.tags = t.tags then (pushPlan g.test_plans t).map (fun ps => [TestGroup.mk g.tags ps])
    else some [g, newGroup t]
  | g :: h :: gs, t => (pushGroup (h :: gs) t).map (fun r => g :: r)

/-- The bucketing loop of organize (runner.rs lines 101-136), folded over the
sorted tests with the result vector as accumulator. -/
def bucket (acc : List TestGroup) : List Test → Option (List TestGroup)
  | [] => some acc
  | t :: ts =>
    match pushGroup acc t with
    | none => none
    | some acc2 => bucket acc2 ts

/-- organize from runner.rs lines 60-139: filter, stable sort by the
comparator, then bucket. none is the explicit panic branch. -/
def organize (tests : List Test) (config : TestifyConfig) (pattern : String → Bool) :
    Option (List TestGroup) :=
  bucket [] (List.insertionSort testLe (tests.filter (keepTest config pattern)))

/-- All cases of a plan list, in plan, case order. -/
def flattenPlans (ps : List TestPlan) : List Test :=
  ps.flatMap TestPlan.cases

/-- All cases of all plans of all groups, in group, plan, case order: the
execution order used by run. -/
def flattenGroups (gs : List TestGroup) : List Test :=
  gs.flatMap fun g => flattenPlans g.test_plans

/-- Well-formedness of the plan list of one group with tag sequence gtags:
every plan is nonempty, every case carries the tags of the group and the name
of its plan, and adjacent plans have different names. -/
def plansWF (gtags : List String) (ps : List TestPlan) : Prop :=
  (∀ p ∈ ps, p.cases ≠ [] ∧ ∀ c ∈ p.cases, c.tags = gtags ∧ c.name = p.name) ∧
  List.Chain' (fun p p2 => p.name ≠ p2.name) ps

/-- Well-formedness of the group list built by the bucketing loop: every group
has a nonempty well-formed plan list and adjacent groups have different tag
sequences. -/
def groupsWF (gs : List TestGroup) : Prop :=
  (∀ g ∈ gs, g.test_plans ≠ [] ∧ plansWF g.tags g.test_plans) ∧
  List.Chain' (fun g g2 => g.tags ≠ g2.tags) gs

/-- Mutable state of the test loop in run (runner.rs lines 201-304): statuses
of the executed cases in execution order, the failures and successes counters,
and whether the labeled break out of the groups loop has fired. -/
structure RunState where
  executed : List TestStatus
  failures : Nat
  successes : Nat
  aborted : Bool
deriving DecidableEq, Repr

def initRunState : RunState := RunState.mk [] 0 0 false

/-- Executing one case inside the loop (runner.rs lines 235-259 and 273-298):
a Passed result increments successes, any other result increments failures and,
under fail_fast, fires the labeled break; once the break has fired no further
case is executed. The single-case and multi-case arms of the source differ
only in printing and are identical here. -/
def execCase (fail_fast : Bool) (st : RunState) (t : Test) : RunState :=
  if st.aborted then st
  else if t.function = TestStatus.Passed then
    RunState.mk (st.executed ++ [TestStatus.Passed]) st.failures (st.successes + 1) false
  else if fail_fast then
    RunState.mk (st.executed ++ [t.function]) (st.failures + 1) st.successes true
  else
    RunState.mk (st.executed ++ [t.function]) (st.failures + 1) st.successes false

/-- The triple nested loop of run (runner.rs lines 213-304): groups in order,
plans in order, cases in order. -/
def runLoop (fail_fast : Bool) (groups : List TestGroup) : RunState :=
  groups.foldl
    (fun st g => g.test_plans.foldl (fun st2 p => p.cases.foldl (execCase fail_fast) st2) st)
    initRunState

/-- Observable events of one run, in order: the setup hook firing, one case
executing with its status, the cleanup hook firing. -/
inductive RunEvent where
  | setupFired : RunEvent
  | caseFired : TestStatus → RunEvent
  | cleanupFired : RunEvent
deriving DecidableEq, Repr

/-- Observable result of run (runner.rs lines 149-325). -/
structure RunReport where
  trace : List RunEvent
  executed : List TestStatus
  failures : Nat
  successes : Nat
  cleanupRan : Bool
  summary : Option String
  exitCode : Nat
deriving DecidableEq, Repr

/-- run from runner.rs lines 149-325. setupHook is none when no setup hook is
registered, some b when one is registered and b says whether it panics. The
setup hook is invoked first (lines 160-171) outside any catch_unwind, so a
panicking setup unwinds out of run: the process aborts with the panic exit
code 101 and neither the tests nor the cleanup block (lines 306-314) are
reached. Otherwise the pattern is compiled from name_filter with default star
(lines 175-185), organize builds the groups (line 192, its panic branch is
unreachable so getD is never exercised), the loop runs, the cleanup hook runs
iff registered, the summary is printed and the exit code is 1 iff failures
are positive (lines 316-325). -/
def runBody (setupRegistered cleanupRegistered : Bool) (tests : List Test)
    (config : TestifyConfig) : RunReport :=
  let groups := (organize tests config (compiledPattern config)).getD []
  let st := runLoop config.fail_fast groups
  RunReport.mk
    ((if setupRegistered then [RunEvent.setupFired] else []) ++
      st.executed.map RunEvent.caseFired ++
      (if cleanupRegistered then [RunEvent.cleanupFired] else []))
    st.executed st.failures st.successes cleanupRegistered
    (some (toString st.failures ++ " failed and " ++ toString st.successes ++ " succeeded"))
    (if st.failures > 0 then 1 else 0)

def runModel (setupHook : Option Bool) (cleanupRegistered : Bool) (tests : List Test)
    (config : TestifyConfig) : RunReport :=
  match setupHook with
  | some true =>
    RunReport.mk [RunEvent.setupFired] [] 0 0 false none 101
  | s => runBody s.isSome cleanupRegistered tests config

/-- A comparator that is a linear order in the sense of Rust's Ord contract;
proof infrastructure for the sort order of organize. -/
structure LawfulCmp (cmp : α → α → Ordering) : Prop where
  swap_eq : ∀ a b, cmp b a = (cmp a b).swap
  eq_iff : ∀ a b, cmp a b = .eq ↔ a = b
  lt_trans : ∀ a b c, cmp a b = .lt → cmp b c = .lt → cmp a c = .lt

/-- Lexicographic combination of two comparators; proof infrastructure. -/
def prodCmp (cf : α → α → Ordering) (cs : β → β → Ordering) (x y : α × β) : Ordering :=
  match cf x.1 y.1 with
  | .eq => cs x.2 y.2
  | c => c

/-- The sort key of a test: its tags, name and case label, the fields the
comparator of organize consults. -/
def testKey (t : Test) : List String × String × Option String := (t.tags, t.name, t.caseLabel)

/-- The comparator of organize, re-expressed on sort keys; proof
infrastructure, proved equal to testCmp below. -/
def keyCmp : List String × String × Option String → List String × String × Option String →
    Ordering :=
  prodCmp listStrCmp (prodCmp strCmp optStrCmp)

/-! Concrete data used by witnesses, scenario claims and counterexamples. -/

def tPass1 : Test := Test.mk "t1" none [] TestStatus.Passed

def tFail2 : Test := Test.mk "t2" none [] TestStatus.Failed

def tPass3 : Test := Test.mk "t3" none [] TestStatus.Passed

def threeTests : List Test := [tPass1, tFail2, tPass3]

def ffTrueConfig : TestifyConfig := TestifyConfig.mk none [] [] true

def ffFalseConfig : TestifyConfig := TestifyConfig.mk none [] [] false

def c5x0 : Test := Test.mk "X" none ["a", "b"] TestStatus.Passed

def c5x1 : Test := Test.mk "X" (some "1") ["a", "b"] TestStatus.Passed

def c5x2 : Test := Test.mk "X" (some "2") ["a", "b"] TestStatus.Passed

def c5y : Test := Test.mk "Y" none [] TestStatus.Passed

def c5tests : List Test := [c5x0, c5x1, c5x2, c5y]

def c5config : TestifyConfig := TestifyConfig.mk none [] [] false

def c5groups : List TestGroup :=
  [TestGroup.mk [] [TestPlan.mk "Y" [c5y]],
   TestGroup.mk ["a", "b"] [TestPlan.mk "X" [c5x0, c5x1, c5x2]]]

def w1test : Test := Test.mk "t1" none ["u"] TestStatus.Passed

def w1config : TestifyConfig := TestifyConfig.mk (some "t*") ["u"] ["x"] false

def w1groups : List TestGroup := [TestGroup.mk ["u"] [TestPlan.mk "t1" [w1test]]]


/-! Lawfulness of the comparators, totality and transitivity of the sort
order, the specification of the bucketing loop, and the claim theorems. -/

theorem charCmp_lt_iff (a b : Char) : charCmp a b = .lt ↔ a.toNat < b.toNat := by
  unfold charCmp
  split_ifs with h1 h2
  · simp [h1]
  · simp [h1]
  · simp [h1]

theorem charCmp_eq_iff (a b : Char) : charCmp a b = .eq ↔ a = b := by
  unfold charCmp
  split_ifs with h1 h2
  · simp only [reduceCtorEq, false_iff]
    intro h
    subst h
    omega
  · simp only [true_iff]
    exact Char.eq_of_val_eq (UInt32.eq_of_toBitVec_eq (BitVec.eq_of_toNat_eq h2))
  · simp only [reduceCtorEq, false_iff]
    intro h
    subst h
    omega

theorem charCmp_lawful : LawfulCmp charCmp := by
  refine ⟨?_, charCmp_eq_iff, ?_⟩
  · intro a b
    unfold charCmp
    rcases Nat.lt_trichotomy a.toNat b.toNat with h | h | h
    · rw [if_neg (by omega : ¬ b.toNat < a.toNat), if_neg (by omega : ¬ b.toNat = a.toNat),
        if_pos h]
      rfl
    · rw [if_neg (by omega : ¬ b.toNat < a.toNat), if_pos h.symm,
        if_neg (by omega : ¬ a.toNat < b.toNat), if_pos h]
      rfl
    · rw [if_pos h, if_neg (by omega : ¬ a.toNat < b.toNat),
        if_neg (by omega : ¬ a.toNat = b.toNat)]
      rfl
  · intro a b c h1 h2
    rw [charCmp_lt_iff] at *
    omega

theorem listCmpWith_cons (cmp : α → α → Ordering) (x y : α) (xs ys : List α) :
    listCmpWith cmp (x :: xs) (y :: ys) =
      (match cmp x y with | .eq => listCmpWith cmp xs ys | c => c) := rfl

theorem listCmpWith_lawful {cmp : α → α → Ordering} (h : LawfulCmp cmp) :
    LawfulCmp (listCmpWith cmp) := by
  constructor
  · intro a b
    induction a generalizing b with
    | nil => cases b <;> rfl
    | cons x xs ih =>
      cases b with
      | nil => rfl
      | cons y ys =>
        rw [listCmpWith_cons, listCmpWith_cons, h.swap_eq x y]
        rcases hc : cmp x y <;> simp [Ordering.swap, ih ys]
  · intro a b
    induction a generalizing b with
    | nil => cases b <;> simp [listCmpWith]
    | cons x xs ih =>
      cases b with
      | nil => simp [listCmpWith]
      | cons y ys =>
        rw [listCmpWith_cons]
        rcases hc : cmp x y with _ | _ | _
        · simp only [reduceCtorEq, false_iff]
          intro hh
          injection hh with hx hxs
          exact absurd (((h.eq_iff x y).mpr hx).symm.trans hc) (by decide)
        · have hx : x = y := (h.eq_iff x y).mp hc
          simp [ih ys, hx]
        · simp only [reduceCtorEq, false_iff]
          intro hh
          injection hh with hx hxs
          exact absurd (((h.eq_iff x y).mpr hx).symm.trans hc) (by decide)
  · intro a b c h1 h2
    induction a generalizing b c with
    | nil =>
      cases b with
      | nil => exact h2
      | cons y ys =>
        cases c with
        | nil => exact absurd h2 (by simp [listCmpWith])
        | cons z zs => rfl
    | cons x xs ih =>
      cases b with
      | nil => exact absurd h1 (by simp [listCmpWith])
      | cons y ys =>
        cases c with
        | nil => exact absurd h2 (by simp [listCmpWith])
        | cons z zs =>
          rw [listCmpWith_cons] at h1 h2 ⊢
          rcases c1 : cmp x y with _ | _ | _ <;> simp only [c1] at h1
          · rcases c2 : cmp y z with _ | _ | _ <;> simp only [c2] at h2
            · simp only [h.lt_trans x y z c1 c2]
            · have hz : y = z := (h.eq_iff y z).mp c2
              subst hz
              simp only [c1]
            · exact absurd h2 (by decide)
          · have hx : x = y := (h.eq_iff x y).mp c1
            subst hx
            rcases c2 : cmp x z with _ | _ | _ <;> simp only [c2] at h2 ⊢
            · exact ih ys zs h1 h2
            · exact h2
          · exact absurd h1 (by decide)

theorem strCmp_lawful : LawfulCmp strCmp := by
  have hl := listCmpWith_lawful charCmp_lawful
  refine ⟨fun a b => hl.swap_eq a.data b.data, ?_, fun a b c => hl.lt_trans a.data b.data c.data⟩
  intro a b
  rw [strCmp, hl.eq_iff]
  exact String.toList_inj

theorem listStrCmp_lawful : LawfulCmp listStrCmp := listCmpWith_lawful strCmp_lawful

theorem optStrCmp_lawful : LawfulCmp optStrCmp := by
  constructor
  · intro a b
    cases a <;> cases b <;> first | rfl | exact strCmp_lawful.swap_eq _ _
  · intro a b
    cases a <;> cases b <;> simp [optStrCmp, strCmp_lawful.eq_iff]
  · intro a b c h1 h2
    cases a <;> cases b <;> cases c <;> simp_all [optStrCmp]
    exact strCmp_lawful.lt_trans _ _ _ h1 h2

theorem prodCmp_lawful {cf : α → α → Ordering} {cs : β → β → Ordering}
    (hf : LawfulCmp cf) (hs : LawfulCmp cs) : LawfulCmp (prodCmp cf cs) := by
  constructor
  · intro x y
    unfold prodCmp
    rw [hf.swap_eq x.1 y.1, hs.swap_eq x.2 y.2]
    rcases cf x.1 y.1 <;> rfl
  · intro x y
    unfold prodCmp
    rcases c1 : cf x.1 y.1 with _ | _ | _ <;> simp only [c1]
    · constructor
      · intro hh
        exact absurd hh (by decide)
      · intro he
        subst he
        exact absurd (((hf.eq_iff x.1 x.1).mpr rfl).symm.trans c1) (by decide)
    · rw [hs.eq_iff]
      constructor
      · intro h2
        exact Prod.ext ((hf.eq_iff _ _).mp c1) h2
      · intro he
        subst he
        rfl
    · constructor
      · intro hh
        exact absurd hh (by decide)
      · intro he
        subst he
        exact absurd (((hf.eq_iff x.1 x.1).mpr rfl).symm.trans c1) (by decide)
  · intro x y z h1 h2
    unfold prodCmp at *
    rcases c1 : cf x.1 y.1 with _ | _ | _ <;> simp only [c1] at h1
    · rcases c2 : cf y.1 z.1 with _ | _ | _ <;> simp only [c2] at h2
      · simp only [hf.lt_trans _ _ _ c1 c2]
      · rw [← (hf.eq_iff _ _).mp c2, c1]
      · exact absurd h2 (by decide)
    · rw [(hf.eq_iff _ _).mp c1]
      rcases c2 : cf y.1 z.1 with _ | _ | _ <;> simp only [c2] at h2 ⊢
      · exact hs.lt_trans _ _ _ h1 h2
      · exact h2
    · exact absurd h1 (by decide)

theorem keyCmp_lawful : LawfulCmp keyCmp :=
  prodCmp_lawful listStrCmp_lawful (prodCmp_lawful strCmp_lawful optStrCmp_lawful)

theorem testCmp_eq_keyCmp (a b : Test) : testCmp a b = keyCmp (testKey a) (testKey b) := by
  unfold testCmp keyCmp prodCmp testKey
  rcases listStrCmp a.tags b.tags <;> rcases strCmp a.name b.name <;> rfl

theorem testLe_total (a b : Test) : testLe a b ∨ testLe b a := by
  unfold testLe
  by_cases h : testCmp a b = .gt
  · right
    rw [testCmp_eq_keyCmp, keyCmp_lawful.swap_eq]
    rw [testCmp_eq_keyCmp] at h
    rw [h]
    decide
  · left
    exact h

theorem testLe_trans (a b c : Test) (h1 : testLe a b) (h2 : testLe b c) : testLe a c := by
  unfold testLe at *
  rw [testCmp_eq_keyCmp] at *
  rcases e1 : keyCmp (testKey a) (testKey b) with _ | _ | _
  · rcases e2 : keyCmp (testKey b) (testKey c) with _ | _ | _
    · rw [keyCmp_lawful.lt_trans _ _ _ e1 e2]
      decide
    · rw [← (keyCmp_lawful.eq_iff _ _).mp e2, e1]
      decide
    · exact absurd e2 h2
  · rw [(keyCmp_lawful.eq_iff _ _).mp e1]
    exact h2
  · exact absurd e1 h1

theorem pushPlan_spec (t : Test) (gtags : List String) (htags : t.tags = gtags) :
    ∀ ps : List TestPlan, ps ≠ [] → plansWF gtags ps →
    ∃ ps2, pushPlan ps t = some ps2 ∧ ps2 ≠ [] ∧ plansWF gtags ps2 ∧
      flattenPlans ps2 = flattenPlans ps ++ [t] ∧
      ps2.head?.map TestPlan.name = ps.head?.map TestPlan.name := by
  intro ps
  induction ps with
  | nil => intro h; exact absurd rfl h
  | cons p rest ih =>
    intro _ hwf
    obtain ⟨hmem, hchain⟩ := hwf
    cases rest with
    | nil =>
      by_cases hname : p.name = t.name
      · refine ⟨[TestPlan.mk p.name (p.cases ++ [t])], ?_, ?_, ⟨?_, ?_⟩, ?_, ?_⟩
        · simp [pushPlan, hname]
        · simp
        · intro q hq
          rw [List.mem_singleton] at hq
          subst hq
          refine ⟨by simp, ?_⟩
          intro c hc
          rcases List.mem_append.mp hc with hc | hc
          · exact (hmem p (List.mem_singleton.mpr rfl)).2 c hc
          · rw [List.mem_singleton] at hc
            subst hc
            exact ⟨htags, hname.symm⟩
        · simp
        · simp [flattenPlans]
        · simp
      · refine ⟨[p, newPlan t], ?_, ?_, ⟨?_, ?_⟩, ?_, ?_⟩
        · simp [pushPlan, hname]
        · simp
        · intro q hq
          rcases List.mem_cons.mp hq with hq | hq
          · rw [hq]
            exact hmem p (List.mem_singleton.mpr rfl)
          · rw [List.mem_singleton] at hq
            subst hq
            refine ⟨by simp [newPlan], ?_⟩
            intro c hc
            simp only [newPlan, List.mem_singleton] at hc
            subst hc
            exact ⟨htags, rfl⟩
        · exact List.chain'_cons.mpr ⟨by simpa [newPlan] using hname, by simp⟩
        · simp [flattenPlans, newPlan]
        · simp
    | cons q rest2 =>
      have hne : q :: rest2 ≠ [] := by simp
      have hwf2 : plansWF gtags (q :: rest2) := by
        refine ⟨?_, (List.chain'_cons'.mp hchain).2⟩
        intro r hr
        exact hmem r (List.mem_cons_of_mem p hr)
      obtain ⟨ps2, hpush, hne2, hwf3, hflat, hhead⟩ := ih hne hwf2
      refine ⟨p :: ps2, ?_, ?_, ⟨?_, ?_⟩, ?_, ?_⟩
      · simp [pushPlan, hpush]
      · simp
      · intro r hr
        rcases List.mem_cons.mp hr with hr | hr
        · rw [hr]
          exact hmem p (List.mem_cons_self p _)
        · exact hwf3.1 r hr
      · refine List.chain'_cons'.mpr ⟨?_, hwf3.2⟩
        intro y hy
        rw [Option.mem_def] at hy
        rw [hy] at hhead
        simp at hhead
        rw [hhead]
        exact (List.chain'_cons'.mp hchain).1 q (by simp)
      · simp only [flattenPlans, List.flatMap_cons] at *
        rw [hflat]
        simp [List.append_assoc]
      · simp

theorem newGroup_wf (t : Test) :
    (newGroup t).test_plans ≠ [] ∧ plansWF (newGroup t).tags (newGroup t).test_plans := by
  refine ⟨by simp [newGroup], ?_, by simp [newGroup, newPlan]⟩
  intro p hp
  simp only [newGroup, newPlan, List.mem_singleton] at hp
  subst hp
  refine ⟨by simp, ?_⟩
  intro c hc
  rw [List.mem_singleton] at hc
  subst hc
  exact ⟨rfl, rfl⟩

theorem pushGroup_spec (t : Test) :
    ∀ gs : List TestGroup, groupsWF gs →
    ∃ gs2, pushGroup gs t = some gs2 ∧ gs2 ≠ [] ∧ groupsWF gs2 ∧
      flattenGroups gs2 = flattenGroups gs ++ [t] ∧
      (gs ≠ [] → gs2.head?.map TestGroup.tags = gs.head?.map TestGroup.tags) := by
  intro gs
  induction gs with
  | nil =>
    intro _
    refine ⟨[newGroup t], rfl, by simp, ⟨?_, by simp⟩,
      by simp [flattenGroups, flattenPlans, newGroup, newPlan], by simp⟩
    intro g hg
    rw [List.mem_singleton] at hg
    subst hg
    exact newGroup_wf t
  | cons g rest ih =>
    intro hwf
    obtain ⟨hmem, hchain⟩ := hwf
    cases rest with
    | nil =>
      by_cases htags : g.tags = t.tags
      · obtain ⟨hplans_ne, hplans_wf⟩ := hmem g (List.mem_singleton.mpr rfl)
        obtain ⟨ps2, hpush, hne2, hwf3, hflat, hhead⟩ :=
          pushPlan_spec t g.tags htags.symm g.test_plans hplans_ne hplans_wf
        refine ⟨[TestGroup.mk g.tags ps2], ?_, by simp, ⟨?_, by simp⟩, ?_, ?_⟩
        · simp [pushGroup, htags, hpush]
        · intro g2 hg2
          rw [List.mem_singleton] at hg2
          subst hg2
          exact ⟨hne2, hwf3⟩
        · simp only [flattenGroups, List.flatMap_cons, List.flatMap_nil, List.append_nil]
          exact hflat
        · intro _
          simp
      · refine ⟨[g, newGroup t], ?_, by simp, ⟨?_, ?_⟩, ?_, ?_⟩
        · simp [pushGroup, htags]
        · intro g2 hg2
          rcases List.mem_cons.mp hg2 with hg2 | hg2
          · rw [hg2]
            exact hmem g (List.mem_singleton.mpr rfl)
          · rw [List.mem_singleton] at hg2
            subst hg2
            exact newGroup_wf t
        · exact List.chain'_cons.mpr ⟨by simpa [newGroup] using htags, by simp⟩
        · simp [flattenGroups, flattenPlans, newGroup, newPlan]
        · intro _
          simp
    | cons q rest2 =>
      have hwf2 : groupsWF (q :: rest2) := by
        refine ⟨?_, (List.chain'_cons'.mp hchain).2⟩
        intro r hr
        exact hmem r (List.mem_cons_of_mem g hr)
      obtain ⟨gs2, hpush, hne2, hwf3, hflat, hhead⟩ := ih hwf2
      refine ⟨g :: gs2, ?_, by simp, ⟨?_, ?_⟩, ?_, ?_⟩
      · simp [pushGroup, hpush]
      · intro r hr
        rcases List.mem_cons.mp hr with hr | hr
        · rw [hr]
          exact hmem g (List.mem_cons_self g _)
        · exact hwf3.1 r hr
      · refine List.chain'_cons'.mpr ⟨?_, hwf3.2⟩
        intro y hy
        rw [Option.mem_def] at hy
        have hh := hhead (by simp)
        rw [hy] at hh
        simp at hh
        rw [hh]
        exact (List.chain'_cons'.mp hchain).1 q (by simp)
      · simp only [flattenGroups, List.flatMap_cons] at *
        rw [hflat]
        simp [List.append_assoc]
      · intro _
        simp

theorem bucket_spec :
    ∀ (ts : List Test) (acc : List TestGroup), groupsWF acc →
    ∃ gs, bucket acc ts = some gs ∧ groupsWF gs ∧
      flattenGroups gs = flattenGroups acc ++ ts := by
  intro ts
  induction ts with
  | nil =>
    intro acc hacc
    exact ⟨acc, rfl, hacc, by simp⟩
  | cons t ts ih =>
    intro acc hacc
    obtain ⟨acc2, hpush, _, hwf2, hflat, _⟩ := pushGroup_spec t acc hacc
    obtain ⟨gs, hbucket, hwf3, hflat2⟩ := ih acc2 hwf2
    refine ⟨gs, ?_, hwf3, ?_⟩
    · simp [bucket, hpush, hbucket]
    · rw [hflat2, hflat]
      simp

theorem groupsWF_nil : groupsWF [] := ⟨by simp, by simp⟩

theorem organize_spec (tests : List Test) (config : TestifyConfig) (pattern : String → Bool) :
    ∃ gs, organize tests config pattern = some gs ∧ groupsWF gs ∧
      flattenGroups gs = List.insertionSort testLe (tests.filter (keepTest config pattern)) := by
  obtain ⟨gs, hb, hwf, hflat⟩ :=
    bucket_spec (List.insertionSort testLe (tests.filter (keepTest config pattern))) [] groupsWF_nil
  refine ⟨gs, hb, hwf, ?_⟩
  rw [hflat]
  simp [flattenGroups]

theorem foldl_flatMap {α β σ : Type} (f : α → List β) (step : σ → β → σ) :
    ∀ (l : List α) (s : σ),
      (l.flatMap f).foldl step s = l.foldl (fun s2 x => (f x).foldl step s2) s := by
  intro l
  induction l with
  | nil => intro s; rfl
  | cons x xs ih =>
    intro s
    simp only [List.flatMap_cons, List.foldl_append, List.foldl_cons]
    exact ih _

theorem runLoop_eq_flat (ff : Bool) (gs : List TestGroup) :
    runLoop ff gs = (flattenGroups gs).foldl (execCase ff) initRunState := by
  unfold runLoop flattenGroups
  rw [foldl_flatMap]
  have he : (fun st2 g => (flattenPlans (TestGroup.test_plans g)).foldl (execCase ff) st2) =
      (fun st g => (TestGroup.test_plans g).foldl
        (fun st2 p => (TestPlan.cases p).foldl (execCase ff) st2) st) := by
    funext st g
    unfold flattenPlans
    rw [foldl_flatMap]
  rw [he]

theorem foldl_execCase_absorb (ff : Bool) :
    ∀ (l : List Test) (st : RunState), st.aborted = true → l.foldl (execCase ff) st = st := by
  intro l
  induction l with
  | nil => intro st _; rfl
  | cons c cs ih =>
    intro st h
    rw [List.foldl_cons]
    have : execCase ff st c = st := by simp [execCase, h]
    rw [this]
    exact ih st h

theorem foldl_execCase_false :
    ∀ (l : List Test) (st : RunState), st.aborted = false →
    (l.foldl (execCase false) st).executed = st.executed ++ l.map Test.function ∧
    (l.foldl (execCase false) st).aborted = false := by
  intro l
  induction l with
  | nil => intro st h; simp [h]
  | cons c cs ih =>
    intro st h
    rw [List.foldl_cons]
    by_cases hf : c.function = TestStatus.Passed
    · have hstep : execCase false st c =
          RunState.mk (st.executed ++ [TestStatus.Passed]) st.failures (st.successes + 1) false := by
        simp [execCase, h, hf]
      rw [hstep]
      obtain ⟨h1, h2⟩ := ih (RunState.mk (st.executed ++ [TestStatus.Passed]) st.failures
        (st.successes + 1) false) rfl
      refine ⟨?_, h2⟩
      rw [h1]
      simp [hf, List.append_assoc]
    · have hstep : execCase false st c =
          RunState.mk (st.executed ++ [c.function]) (st.failures + 1) st.successes false := by
        simp [execCase, h, hf]
      rw [hstep]
      obtain ⟨h1, h2⟩ := ih (RunState.mk (st.executed ++ [c.function]) (st.failures + 1)
        st.successes false) rfl
      refine ⟨?_, h2⟩
      rw [h1]
      simp [List.append_assoc]

theorem foldl_execCase_true :
    ∀ (l : List Test) (st : RunState), st.aborted = false →
    (l.foldl (execCase true) st).executed =
      st.executed ++ (l.map Test.function).takeWhile (fun s => s == TestStatus.Passed) ++
        ((l.map Test.function).dropWhile (fun s => s == TestStatus.Passed)).take 1 := by
  intro l
  induction l with
  | nil => intro st h; simp
  | cons c cs ih =>
    intro st h
    rw [List.foldl_cons]
    by_cases hf : c.function = TestStatus.Passed
    · have hstep : execCase true st c =
          RunState.mk (st.executed ++ [TestStatus.Passed]) st.failures (st.successes + 1) false := by
        simp [execCase, h, hf]
      rw [hstep, ih _ rfl]
      simp [hf, List.takeWhile_cons, List.dropWhile_cons, List.append_assoc]
    · have hstep : execCase true st c =
          RunState.mk (st.executed ++ [c.function]) (st.failures + 1) st.successes true := by
        simp [execCase, h, hf]
      rw [hstep, foldl_execCase_absorb true cs _ rfl]
      simp [List.takeWhile_cons, List.dropWhile_cons, hf]

theorem nil_mem_suffixes : ∀ s : List Char, [] ∈ suffixes s := by
  intro s
  induction s with
  | nil => simp [suffixes]
  | cons c s ih => simp [suffixes, ih]

theorem globMatchAux_star (l : List Char) : globMatchAux ['*'] l = true := by
  simp only [globMatchAux, List.any_eq_true]
  exact ⟨[], nil_mem_suffixes l, rfl⟩

theorem globMatch_star (s : String) : globMatch "*" s = true := globMatchAux_star s.data

theorem mem_flattenGroups (gs : List TestGroup) (t : Test) :
    t ∈ flattenGroups gs ↔ ∃ g ∈ gs, ∃ p ∈ g.test_plans, t ∈ p.cases := by
  simp [flattenGroups, flattenPlans, List.mem_flatMap]

theorem keepTest_iff (config : TestifyConfig) (pattern : String → Bool) (t : Test) :
    keepTest config pattern t = true ↔
      (∀ tag ∈ config.tags, tag ∈ t.tags) ∧ (∀ tag ∈ config.exclude_tags, tag ∉ t.tags) ∧
      pattern t.name = true := by
  rw [keepTest]
  simp [List.all_eq_true, and_assoc]

theorem runModel_ok (s : Option Bool) (hs : s ≠ some true) (cl : Bool) (tests : List Test)
    (config : TestifyConfig) : runModel s cl tests config = runBody s.isSome cl tests config := by
  rcases s with _ | b
  · rfl
  · cases b with
    | false => rfl
    | true => exact absurd rfl hs

theorem runLoop_nil (ff : Bool) : runLoop ff [] = initRunState := rfl

theorem runBody_exitCode (sr cl : Bool) (tests : List Test) (config : TestifyConfig) :
    (runBody sr cl tests config).exitCode =
      if (runBody sr cl tests config).failures > 0 then 1 else 0 := rfl

/-- C1: for every descriptor list and configuration, organize retains a test if
and only if every tag of config.tags is contained in the test's tags, no tag of
config.exclude_tags is contained in the test's tags, and the test's name
matches the name_filter glob, an absent name_filter being replaced by the
match-everything pattern star. -/
theorem organize_retains_iff (tests : List Test) (config : TestifyConfig) (t : Test)
    (gs : List TestGroup) (h : organize tests config (compiledPattern config) = some gs)
    (ht : t ∈ tests) :
    (∃ g ∈ gs, ∃ p ∈ g.test_plans, t ∈ p.cases) ↔
      ((∀ tag ∈ config.tags, tag ∈ t.tags) ∧ (∀ tag ∈ config.exclude_tags, tag ∉ t.tags) ∧
       (∀ pat ∈ config.name_filter, globMatch pat t.name = true)) := by
  obtain ⟨gs2, h2, _, hflat⟩ := organize_spec tests config (compiledPattern config)
  rw [h] at h2
  injection h2 with h2
  subst h2
  rw [← mem_flattenGroups, hflat,
    List.Perm.mem_iff (List.perm_insertionSort testLe _), List.mem_filter, keepTest_iff]
  cases hnf : config.name_filter with
  | none => simp [ht, compiledPattern, hnf, globMatch_star]
  | some p => simp [ht, compiledPattern, hnf]

theorem organize_retains_iff_witness :
    organize [w1test] w1config (compiledPattern w1config) = some w1groups ∧
    w1test ∈ [w1test] ∧
    ((∃ g ∈ w1groups, ∃ p ∈ g.test_plans, w1test ∈ p.cases) ↔
      ((∀ tag ∈ w1config.tags, tag ∈ w1test.tags) ∧
       (∀ tag ∈ w1config.exclude_tags, tag ∉ w1test.tags) ∧
       (∀ pat ∈ w1config.name_filter, globMatch pat w1test.name = true))) :=
  ⟨by decide, by decide,
    organize_retains_iff [w1test] w1config w1test w1groups (by decide) (by decide)⟩

/-- C2: the generated test wrapper maps the raw outcome and the mutually
exclusive expectations to a TestStatus exactly as the status table says, where
success is the TestTermination success of the returned value. -/
theorem status_mapping (should_panic should_fail : Bool)
    (h : ¬(should_panic = true ∧ should_fail = true)) (v : TermValue) :
    (should_panic = true →
      testWrapper should_panic should_fail RawOutcome.panicked = TestStatus.Passed) ∧
    (should_panic = false →
      testWrapper should_panic should_fail RawOutcome.panicked = TestStatus.Panicked) ∧
    (should_panic = true →
      testWrapper should_panic should_fail (RawOutcome.returned v) = TestStatus.NotPanicked) ∧
    (should_panic = false → should_fail = true →
      testWrapper should_panic should_fail (RawOutcome.returned v) =
        (if v.success then TestStatus.NotFailed else TestStatus.Passed)) ∧
    (should_panic = false → should_fail = false →
      testWrapper should_panic should_fail (RawOutcome.returned v) =
        (if v.success then TestStatus.Passed else TestStatus.Failed)) := by
  cases should_panic <;> cases should_fail <;> simp [testWrapper]

theorem status_mapping_witness :
    testWrapper true false RawOutcome.panicked = TestStatus.Passed :=
  (status_mapping true false (by decide) TermValue.unitVal).1 rfl

/-- C3: organize first sorts the filtered descriptors by the triple of tags,
name and case label and then buckets the sorted run in one pass, starting a
new group exactly when the tag sequence changes and a new plan exactly when
the name changes, the resulting order being the execution order. -/
theorem organize_sorts_then_buckets (tests : List Test) (config : TestifyConfig)
    (pattern : String → Bool) :
    ∃ gs, organize tests config pattern = some gs ∧
      List.Sorted testLe (flattenGroups gs) ∧
      List.Perm (flattenGroups gs) (tests.filter (keepTest config pattern)) ∧
      (∀ g ∈ gs, ∀ p ∈ g.test_plans, ∀ c ∈ p.cases, c.tags = g.tags ∧ c.name = p.name) ∧
      List.Chain' (fun g g2 => g.tags ≠ g2.tags) gs ∧
      (∀ g ∈ gs, List.Chain' (fun p p2 => p.name ≠ p2.name) g.test_plans) ∧
      (runLoop false gs).executed = (flattenGroups gs).map Test.function := by
  obtain ⟨gs, h, hwf, hflat⟩ := organize_spec tests config pattern
  haveI : IsTotal Test testLe := ⟨testLe_total⟩
  haveI : IsTrans Test testLe := ⟨testLe_trans⟩
  refine ⟨gs, h, ?_, ?_, ?_, ?_, ?_, ?_⟩
  · rw [hflat]
    exact List.sorted_insertionSort testLe _
  · rw [hflat]
    exact List.perm_insertionSort testLe _
  · intro g hg p hp c hc
    exact ((hwf.1 g hg).2.1 p hp).2 c hc
  · exact hwf.2
  · intro g hg
    exact ((hwf.1 g hg).2).2
  · rw [runLoop_eq_flat]
    simpa using (foldl_execCase_false (flattenGroups gs) initRunState rfl).1

/-- C4: with fail_fast the first non Passed case stops the run and no later
case executes; in the three case scenario with the second case failing exactly
two cases execute under fail_fast and all three without it, and both runs
still reach the cleanup phase. -/
theorem fail_fast_behavior :
    (∀ groups : List TestGroup,
      (runLoop true groups).executed =
        ((flattenGroups groups).map Test.function).takeWhile
            (fun s => s == TestStatus.Passed) ++
          (((flattenGroups groups).map Test.function).dropWhile
            (fun s => s == TestStatus.Passed)).take 1 ∧
      (runLoop false groups).executed = (flattenGroups groups).map Test.function) ∧
    (runModel none true threeTests ffTrueConfig).executed =
      [TestStatus.Passed, TestStatus.Failed] ∧
    (runModel none true threeTests ffTrueConfig).cleanupRan = true ∧
    (runModel none true threeTests ffFalseConfig).executed =
      [TestStatus.Passed, TestStatus.Failed, TestStatus.Passed] ∧
    (runModel none true threeTests ffFalseConfig).cleanupRan = true := by
  refine ⟨?_, by decide, by decide, by decide, by decide⟩
  intro groups
  constructor
  · rw [runLoop_eq_flat]
    simpa using foldl_execCase_true (flattenGroups groups) initRunState rfl
  · rw [runLoop_eq_flat]
    simpa using (foldl_execCase_false (flattenGroups groups) initRunState rfl).1

/-- C5 counterexample: on the four descriptors of the grouping scenario the
group with tags a b holds a single plan X with three cases, not two: no plan
in the organize output has exactly two cases. -/
theorem c5_counterexample :
    organize c5tests c5config (compiledPattern c5config) = some c5groups ∧
    (∀ g ∈ c5groups, ∀ p ∈ g.test_plans, p.cases.length ≠ 2) := by decide

/-- C5 amended: the four descriptors organize into exactly two groups; the
group with tags a b has exactly one plan X whose three cases are the case free
descriptor first and then the cases labelled 1 and 2 in label order; the
untagged group has one plan Y with one case. -/
theorem c5_grouping :
    ∃ gs, organize c5tests c5config (compiledPattern c5config) = some gs ∧
      gs.length = 2 ∧
      (∃ g ∈ gs, g.tags = ["a", "b"] ∧ g.test_plans.length = 1 ∧
        ∃ p ∈ g.test_plans, p.name = "X" ∧
          p.cases.map Test.caseLabel = [none, some "1", some "2"]) ∧
      (∃ g ∈ gs, g.tags = ([] : List String) ∧ g.test_plans.length = 1 ∧
        ∃ p ∈ g.test_plans, p.name = "Y" ∧ p.cases.length = 1) :=
  ⟨c5groups, by decide, by decide, by decide, by decide⟩

/-- C6: when the run completes, the exit status is zero iff the count of non
Passed executed cases is zero; with zero tests left after filtering the
summary reads 0 failed and 0 succeeded and the exit status is zero. -/
theorem exit_status_iff (setupHook : Option Bool) (cleanupRegistered : Bool)
    (tests : List Test) (config : TestifyConfig) (h : setupHook ≠ some true) :
    ((runModel setupHook cleanupRegistered tests config).exitCode = 0 ↔
      (runModel setupHook cleanupRegistered tests config).failures = 0) ∧
    (tests.filter (keepTest config (compiledPattern config)) = [] →
      (runModel setupHook cleanupRegistered tests config).summary =
        some "0 failed and 0 succeeded" ∧
      (runModel setupHook cleanupRegistered tests config).exitCode = 0) := by
  rw [runModel_ok setupHook h]
  constructor
  · rw [runBody_exitCode]
    by_cases h0 : (runBody setupHook.isSome cleanupRegistered tests config).failures > 0
    · simp [h0]
      omega
    · simp [h0]
      omega
  · intro hfilter
    have horg : organize tests config (compiledPattern config) = some [] := by
      unfold organize
      rw [hfilter]
      rfl
    constructor
    · show (runBody _ _ _ _).summary = _
      simp only [runBody, horg, Option.getD_some, runLoop_nil, initRunState]
      decide
    · show (runBody _ _ _ _).exitCode = 0
      simp only [runBody, horg, Option.getD_some, runLoop_nil, initRunState]
      rfl

theorem exit_status_iff_witness :
    ((runModel none true [] ffTrueConfig).exitCode = 0 ↔
      (runModel none true [] ffTrueConfig).failures = 0) ∧
    (runModel none true [] ffTrueConfig).summary = some "0 failed and 0 succeeded" ∧
    (runModel none true [] ffTrueConfig).exitCode = 0 :=
  ⟨(exit_status_iff none true [] ffTrueConfig (by decide)).1,
   (exit_status_iff none true [] ffTrueConfig (by decide)).2 (by decide)⟩

/-- C7 counterexample: when the registered setup hook panics, the run executes
no test and exits nonzero, but the registered cleanup hook is not invoked,
contrary to the claim that cleanup is still attempted: the panic unwinds out
of run before the cleanup block. -/
theorem setup_failure_counterexample :
    (runModel (some true) true [tPass1] ffTrueConfig).cleanupRan = false ∧
    (runModel (some true) true [tPass1] ffTrueConfig).executed = [] ∧
    (runModel (some true) true [tPass1] ffTrueConfig).exitCode ≠ 0 := by decide

/-- C7 amended: if the setup hook fails, the run is fatal: no test executes
and the process exits nonzero; the cleanup hook is not invoked, even when
registered, because the panic propagates out of the runner before the cleanup
block is reached. -/
theorem setup_failure_fatal (cleanupRegistered : Bool) (tests : List Test)
    (config : TestifyConfig) :
    (runModel (some true) cleanupRegistered tests config).executed = [] ∧
    (runModel (some true) cleanupRegistered tests config).exitCode ≠ 0 ∧
    (runModel (some true) cleanupRegistered tests config).cleanupRan = false :=
  ⟨rfl, show (101 : Nat) ≠ 0 by decide, rfl⟩

/-- C8: in every run whose setup hook does not fail, a registered setup hook
fires first in the trace, before every executed case, and a registered
cleanup hook fires last, after every executed case, for every configuration
and descriptor list, including fail fast aborts and empty filters. -/
theorem hook_ordering (setupHook : Option Bool) (cleanupRegistered : Bool)
    (tests : List Test) (config : TestifyConfig) (h : setupHook ≠ some true) :
    (setupHook.isSome = true →
      (runModel setupHook cleanupRegistered tests config).trace.head? =
        some RunEvent.setupFired) ∧
    (cleanupRegistered = true →
      (runModel setupHook cleanupRegistered tests config).trace.getLast? =
        some RunEvent.cleanupFired) := by
  rw [runModel_ok setupHook h]
  constructor
  · intro hs
    simp [runBody, hs]
  · intro hc
    simp [runBody, hc, List.getLast?_concat]

theorem hook_ordering_witness :
    (runModel (some false) true [tPass1] ffTrueConfig).trace.head? =
      some RunEvent.setupFired ∧
    (runModel (some false) true [tPass1] ffTrueConfig).trace.getLast? =
      some RunEvent.cleanupFired :=
  ⟨(hook_ordering (some false) true [tPass1] ffTrueConfig (by decide)).1 rfl,
   (hook_ordering (some false) true [tPass1] ffTrueConfig (by decide)).2 rfl⟩

/-- C9: organize is deterministic: two invocations on the same descriptor
list, configuration and compiled pattern produce the same groups, plans and
cases in the same order. -/
theorem organize_deterministic (tests : List Test) (config : TestifyConfig)
    (pattern : String → Bool) (gs1 gs2 : List TestGroup)
    (h1 : organize tests config pattern = some gs1)
    (h2 : organize tests config pattern = some gs2) : gs1 = gs2 := by
  rw [h1] at h2
  exact Option.some.inj h2

theorem organize_deterministic_witness :
    organize [] ffTrueConfig (compiledPattern ffTrueConfig) = some [] ∧
    ([] : List TestGroup) = [] :=
  ⟨rfl, organize_deterministic [] ffTrueConfig (compiledPattern ffTrueConfig) [] [] rfl rfl⟩

/-- C10: the explicit panic branch in the bucketing loop of organize is
unreachable: organize always returns a group list in which every group holds
at least one plan and every plan at least one case, so organize is total. -/
theorem organize_never_panics (tests : List Test) (config : TestifyConfig)
    (pattern : String → Bool) :
    ∃ gs, organize tests config pattern = some gs ∧
      ∀ g ∈ gs, g.test_plans ≠ [] ∧ ∀ p ∈ g.test_plans, p.cases ≠ [] := by
  obtain ⟨gs, h, hwf, _⟩ := organize_spec tests config pattern
  refine ⟨gs, h, ?_⟩
  intro g hg
  refine ⟨(hwf.1 g hg).1, ?_⟩
  intro p hp
  exact ((hwf.1 g hg).2.1 p hp).1
